import Mathlib

set_option maxRecDepth 100000

/-!
Verification of the Discussion-Processor repository.

The definitions below are a shallow embedding of the Python sources
(`tools.py` and `crew.py`).  Strings are modelled as `List Char`; the
Python regular-expression operations used by the code are implemented
as executable scanners with the same semantics on the relevant inputs.
External generative-model stages are modelled as oracle fields of an
`Env` record; Python exceptions raised by a stage are modelled with
`Except`.  Side effects (directory creation, file writes, log writes)
are modelled as explicit event traces.
-/

/-- Whitespace characters recognised by Python `str.strip()` and the
regex class matched by the source's whitespace handling (ASCII range). -/
def isWS (c : Char) : Bool :=
  c = ' ' || c = '\t' || c = '\n' || c = '\r' || c = '\x0b' || c = '\x0c'

/-- ASCII decimal digits, the characters matched by the regex class used
in `extract_score`. -/
def isDigitB (c : Char) : Bool :=
  c.isDigit

/-- The characters replaced by `sanitize_filename`'s regex class. -/
def isBadFileChar (c : Char) : Bool :=
  c = '<' || c = '>' || c = ':' || c = '"' || c = '/' || c = '\\' ||
  c = '|' || c = '?' || c = '*'

/-- The characters stripped by `sanitized.strip('. ')` in `sanitize_filename`. -/
def isDotSpace (c : Char) : Bool :=
  c = '.' || c = ' '

/-- Boolean list membership for characters. -/
def memB (b : Char) : List Char → Bool
  | [] => false
  | c :: t => c = b || memB b t

/-- `noPairB a b s` holds when no occurrence of `a` in `s` is followed
(anywhere later) by an occurrence of `b`. -/
def noPairB (a b : Char) : List Char → Bool
  | [] => true
  | c :: t => if c = a then !(memB b t) else noPairB a b t

/-- Drop the longest suffix of characters satisfying `p`
(the trailing half of Python's `str.strip`). -/
def dropEndP (p : Char → Bool) : List Char → List Char
  | [] => []
  | c :: t =>
    match dropEndP p t with
    | [] => if p c then [] else [c]
    | d :: u => c :: d :: u

/-- Python `str.strip(chars)`: remove leading and trailing characters
satisfying `p`. -/
def pyStripP (p : Char → Bool) (l : List Char) : List Char :=
  dropEndP p (l.dropWhile p)

/-- Python `str.strip()` (whitespace). -/
def pyStrip (l : List Char) : List Char :=
  pyStripP isWS l

/-- Python `str.split('\n')`: the list of lines; never empty. -/
def splitNl : List Char → List (List Char)
  | [] => [[]]
  | c :: t =>
    if c = '\n' then [] :: splitNl t
    else (c :: (splitNl t).headD []) :: (splitNl t).tail

/-- Python `'\n'.join(parts)`. -/
def joinNl : List (List Char) → List Char
  | [] => []
  | [l] => l
  | l :: m :: r => l ++ '\n' :: joinNl (m :: r)

/-- The final line-oriented cleanup in `clean_dialogue` (`tools.py`
lines 27-31): strip every line, drop the lines that became empty,
rejoin with single newlines, and strip the whole result. -/
def linePass (s : List Char) : List Char :=
  pyStrip (joinNl (((splitNl s).map pyStrip).filter (fun l => !l.isEmpty)))

/-- `re.sub(r"a[^b]*b", "", s)` for one delimiter pair `a`, `b`:
scanner state `buf = some l` means an unclosed `a` was seen and `l`
holds (reversed) the characters scanned since; if the closing `b`
arrives the whole bracketed group is dropped, and at end of input an
unclosed group is emitted unchanged, exactly as the regex leaves an
`a` with no later `b` in place. -/
def rdAux (a b : Char) (buf : Option (List Char)) : List Char → List Char
  | [] =>
    match buf with
    | none => []
    | some l => l.reverse
  | c :: t =>
    match buf with
    | none => if c = a then rdAux a b (some [c]) t else c :: rdAux a b none t
    | some l => if c = b then rdAux a b none t else rdAux a b (some (c :: l)) t

/-- Removal of one bracketed-annotation kind in `clean_dialogue`
(`tools.py` lines 17, 19, 21). -/
def removeDelim (a b : Char) (s : List Char) : List Char :=
  rdAux a b none s

/-- `re.sub(r"\s+", " ", s)` (`tools.py` line 24): every maximal run of
whitespace becomes one space.  The flag records whether the scanner is
inside a run whose single replacement space was already emitted. -/
def cwAux : Bool → List Char → List Char
  | _, [] => []
  | inRun, c :: t =>
    if isWS c then
      if inRun then cwAux true t else ' ' :: cwAux true t
    else c :: cwAux false t

/-- Whitespace collapsing pass of `clean_dialogue`. -/
def collapseWS (s : List Char) : List Char :=
  cwAux false s

/-- Backtracking helper for a greedy `\s*`: try consuming `i` characters
of the whitespace prefix, longest first, before the continuation `k`. -/
def tryStarGo (k : List Char → Option (List Char)) : Nat → List Char → Option (List Char)
  | 0, s => k s
  | i + 1, s =>
    match k (s.drop (i + 1)) with
    | some r => some r
    | none => tryStarGo k i s

/-- Greedy `\s*` followed by continuation `k`, with backtracking. -/
def tryStar (k : List Char → Option (List Char)) (s : List Char) : Option (List Char) :=
  tryStarGo k ((s.takeWhile isWS).length) s

/-- Trailing `\n+` of the pattern `\n\s*\n\s*\n+` (greedy). -/
def nlTail : List Char → Option (List Char)
  | [] => none
  | c :: t => if c = '\n' then some (t.dropWhile (fun d => d = '\n')) else none

/-- The `\n\s*\n+` tail of the pattern. -/
def nlMid : List Char → Option (List Char)
  | [] => none
  | c :: t => if c = '\n' then tryStar nlTail t else none

/-- Matching `\n\s*\n\s*\n+` at the front of the input; returns the
remainder after the match. -/
def matchNlPat : List Char → Option (List Char)
  | [] => none
  | c :: t => if c = '\n' then tryStar nlMid t else none

/-- `re.sub(r"\n\s*\n\s*\n+", "\n\n", s)` (`tools.py` line 26), with a
fuel argument (one unit per scanned position) making the scanner
structurally recursive; `nlSub` supplies sufficient fuel. -/
def nlSubF : Nat → List Char → List Char
  | _, [] => []
  | 0, s => s
  | fuel + 1, c :: t =>
    match matchNlPat (c :: t) with
    | some r => '\n' :: '\n' :: nlSubF fuel r
    | none => c :: nlSubF fuel t

/-- The multiple-newline collapsing pass of `clean_dialogue`. -/
def nlSub (s : List Char) : List Char :=
  nlSubF s.length s

/-- `TextProcessor.clean_dialogue` (`tools.py` lines 11-31):
remove `(...)`, `[...]`, `{...}` groups, collapse whitespace runs to a
single space, apply the multiple-newline substitution, then strip and
rejoin the surviving lines. -/
def clean_dialogue (text : List Char) : List Char :=
  if text = [] then []
  else
    linePass (nlSub (collapseWS
      (removeDelim '{' '}' (removeDelim '[' ']' (removeDelim '(' ')' text)))))

/-- Numeric value of a digit string (`int(...)` on captured digits). -/
def digitsVal (l : List Char) : Nat :=
  l.foldl (fun a c => 10 * a + (c.toNat - '0'.toNat)) 0

/-- `min(max(score, 1), 10)` from `extract_score`. -/
def clampScore (n : Nat) : Nat :=
  min (max n 1) 10

/-- `str(n)` for the clamped score. -/
def natStr (n : Nat) : List Char :=
  (Nat.repr n).toList

/-- `re.search(r"(\d+)(?:/10|/\d+)", line)`: the leftmost digit run that
is immediately followed by a slash and a digit; returns its value. -/
def searchFrac : List Char → Option Nat
  | [] => none
  | c :: t =>
    if isDigitB c then
      match (c :: t).dropWhile isDigitB with
      | '/' :: d :: _ =>
        if isDigitB d then some (digitsVal ((c :: t).takeWhile isDigitB))
        else searchFrac t
      | _ => searchFrac t
    else searchFrac t

/-- `re.search(r"(\d+)", line)`: the first digit run; returns its value. -/
def searchNum : List Char → Option Nat
  | [] => none
  | c :: t =>
    if isDigitB c then some (digitsVal ((c :: t).takeWhile isDigitB))
    else searchNum t

/-- `TextProcessor.extract_score` (`tools.py` lines 34-64). -/
def extract_score (score_text : List Char) : List Char :=
  if score_text = [] then ['0']
  else
    match splitNl (pyStrip score_text) with
    | [] => ['0']
    | l0 :: _ =>
      let first_line := pyStrip l0
      if first_line ≠ [] ∧ first_line.all isDigitB then
        natStr (clampScore (digitsVal first_line))
      else
        match searchFrac first_line with
        | some n => natStr (clampScore n)
        | none =>
          match searchNum first_line with
          | some n => natStr (clampScore n)
          | none => ['0']

/-- Number of non-blank lines of a text: its lines, each stripped, with
the empty ones discarded (`tools.py` lines 78-79). -/
def nbCountLines (s : List Char) : Nat :=
  (((splitNl s).map pyStrip).filter (fun l => !l.isEmpty)).length

/-- `TextProcessor.validate_discussion_content` (`tools.py` lines 67-84). -/
def validate_discussion_content (content : List Char) : Bool :=
  if content = [] then false
  else if pyStrip content = [] then false
  else if (pyStrip content).length < 100 then false
  else if nbCountLines (pyStrip content) < 3 then false
  else true

/-- `TextProcessor.sanitize_filename` (`tools.py` lines 87-96). -/
def sanitize_filename (filename : List Char) : List Char :=
  let sanitized := filename.map (fun c => if isBadFileChar c then '_' else c)
  let stripped := pyStripP isDotSpace sanitized
  if stripped = [] then "output".toList else stripped

/-- A filesystem side effect performed by `FileManager`. -/
inductive FOp where
  | mkdirs
  | writeFile (name : List Char) (content : List Char)
deriving DecidableEq

/-- `FileManager.save_result` (`tools.py` lines 114-133): the boolean
result together with the filesystem operations attempted.  Empty
content is refused before any directory creation or write; otherwise
the directories are ensured and the content is written under the
sanitized filename (the happy path returns `true`; an OS-level write
failure is caught inside the function and only flips the boolean). -/
def save_result (content : List Char) (filename : List Char) : Bool × List FOp :=
  if content = [] then (false, [])
  else (true, [FOp.mkdirs, FOp.writeFile (sanitize_filename filename) content])

/-- `ValidationTools.validate_agent_response` (`tools.py` lines 216-227). -/
def validate_agent_response (response : List Char) : Bool :=
  if response = [] then false
  else if pyStrip response = [] then false
  else if (pyStrip response).length < 10 then false
  else true

/-- `ValidationTools.validate_crew_result` (`tools.py` lines 230-244):
`none` models a Python `None` result. -/
def validate_crew_result (result : Option (List Char)) : Bool :=
  match result with
  | none => false
  | some s => if pyStrip s = [] then false else true

/-- Python `str.upper()` on the ASCII range. -/
def pyUpper (s : List Char) : List Char :=
  s.map Char.toUpper

/-- `needle in haystack` for Python strings: substring test. -/
def listStartsWith : List Char → List Char → Bool
  | [], _ => true
  | _ :: _, [] => false
  | a :: as, b :: bs => a = b && listStartsWith as bs

/-- Python substring containment. -/
def containsSub (n : List Char) : List Char → Bool
  | [] => listStartsWith n []
  | c :: t => listStartsWith n (c :: t) || containsSub n t

/-- The literal rejection marker scanned for by `run_spam_filter`. -/
def stopMarker : List Char := ['S', 'T', 'O', 'P']

/-- An observable stage execution or file write performed during
`process_discussion`. -/
inductive Ev where
  | spamCall
  | transformCall
  | scoreCall
  | writeDialogue
  | writeScore
  | writeLog
deriving DecidableEq

/-- The external world of one pipeline run: whether the required
credential is configured, and the behaviour of the three generative
stages.  `Except.error msg` models the stage raising a Python
exception with message `msg`; `Except.ok` models the stage returning
normally.  The crew stage may return Python `None` (`Option`). -/
structure Env where
  envValid : Bool
  spamResult : Except (List Char) (List Char)
  crewResult : Except (List Char) (Option (List Char))
  scoreResult : Except (List Char) (List Char)

/-- `NewsGroupCrew.run_spam_filter` (`crew.py` lines 24-54): an
exception or an invalid response yields `false` (content not
processed), a valid response containing `"STOP"` after upper-casing
yields `false`, and any other valid response yields `true`. -/
def run_spam_filter (env : Env) : Bool :=
  match env.spamResult with
  | .error _ => false
  | .ok r =>
    if !(validate_agent_response r) then false
    else if containsSub stopMarker (pyUpper r) then false
    else true

/-- `NewsGroupCrew.run_dialogue_transformation` (`crew.py` lines
56-105): an exception or an invalid crew result yields `none`;
otherwise the result is cleaned with `clean_dialogue`, and an empty
cleaned result also yields `none`. -/
def run_dialogue_transformation (env : Env) : Option (List Char) :=
  match env.crewResult with
  | .error _ => none
  | .ok r =>
    if !(validate_crew_result r) then none
    else
      match r with
      | none => none
      | some s =>
        let cleaned := clean_dialogue s
        if pyStrip cleaned = [] then none else some cleaned

/-- `NewsGroupCrew.score_dialogue` (`crew.py` lines 107-136) plus its
event trace: an empty or whitespace-only dialogue short-circuits to
the sentinel `"0"` without invoking the scoring stage; an exception or
an invalid scoring response also yields `"0"`; otherwise the score is
extracted with `extract_score`. -/
def score_dialogue (dialogue_result : List Char) (env : Env) : List Char × List Ev :=
  if dialogue_result = [] then (['0'], [])
  else if pyStrip dialogue_result = [] then (['0'], [])
  else
    match env.scoreResult with
    | .error _ => (['0'], [Ev.scoreCall])
    | .ok r =>
      if !(validate_agent_response r) then (['0'], [Ev.scoreCall])
      else (extract_score r, [Ev.scoreCall])

/-- The composed score report written by `process_discussion`
(`crew.py` lines 195-199); the run-header line is opaque here and
elided, which keeps the report nonempty in every case, as in the
source (it always starts with the literal score line). -/
def score_report (score dialogue : List Char) : List Char :=
  "Dialogue Quality Score: ".toList ++ score ++ "/10\n\n".toList ++
  "DIALOGUE CONTENT:\n".toList ++ dialogue

/-- The outcome of one pipeline run: the `{"error": msg}`,
`{"status": "filtered"}` and `{"status": "success"}` dictionaries of
`process_discussion`, keeping the discriminating fields. -/
inductive PResult where
  | perror (msg : List Char)
  | filtered
  | success (dialogue score : List Char)
deriving DecidableEq

/-- Error message of the environment pre-flight check (`crew.py` line 146). -/
def envErrMsg : List Char :=
  "Environment validation failed - check API keys".toList

/-- Error message of the content pre-flight check (`crew.py` line 153). -/
def contentErrMsg : List Char :=
  ("Invalid or insufficient discussion content " ++
   "(minimum 100 characters, meaningful content required)").toList

/-- Error message for a failed dialogue transformation (`crew.py` line 177). -/
def transformErrMsg : List Char :=
  "Dialogue transformation failed - no output generated".toList

/-- `NewsGroupCrew.process_discussion` (`crew.py` lines 138-236),
returning the structured result and the trace of stage executions and
file writes.  Every stage call catches its own exceptions, so the
function is total and no exception reaches the caller; the
environment and content pre-flight failures return before the spam
stage and before any log flush. -/
def process_discussion (content : List Char) (env : Env)
    (save_output save_logs : Bool) : PResult × List Ev :=
  if !env.envValid then (.perror envErrMsg, [])
  else if !(validate_discussion_content content) then (.perror contentErrMsg, [])
  else if !(run_spam_filter env) then
    (.filtered, [Ev.spamCall] ++ (if save_logs then [Ev.writeLog] else []))
  else
    match run_dialogue_transformation env with
    | none =>
      (.perror transformErrMsg,
       [Ev.spamCall, Ev.transformCall] ++ (if save_logs then [Ev.writeLog] else []))
    | some dialogue =>
      let sc := score_dialogue dialogue env
      let fileEvs :=
        if save_output then
          (if (save_result dialogue ("dialogue_output.txt".toList)).1 then
            [Ev.writeDialogue] else []) ++
          (if (save_result (score_report sc.1 dialogue) ("dialogue_score.txt".toList)).1 then
            [Ev.writeScore] else [])
        else []
      (.success dialogue sc.1,
       [Ev.spamCall, Ev.transformCall] ++ sc.2 ++ fileEvs ++
       (if save_logs then [Ev.writeLog] else []))

/-- Well-formedness of a whitespace-collapsed string: every whitespace
character is a space and no two adjacent characters are both
whitespace.  This is the shape `collapseWS` produces and is fixed by
every later pass of `clean_dialogue`. -/
def wsOK : List Char → Bool
  | [] => true
  | [c] => !(isWS c) || (c = ' ')
  | c :: d :: t => ((!(isWS c)) || (c = ' ' && !(isWS d))) && wsOK (d :: t)

/-- Apply `f` to the last element of a list of lines. -/
def modLast (f : List Char → List Char) : List (List Char) → List (List Char)
  | [] => []
  | [x] => [f x]
  | x :: y :: r => x :: modLast f (y :: r)

/-- Number of kept lines among a list of line candidates: each is
stripped and the empty ones are discarded (the list-of-parts form of
`nbCountLines`). -/
def cntNB (parts : List (List Char)) : Nat :=
  ((parts.map pyStrip).filter (fun l => !l.isEmpty)).length

/-- A 150-character, 4-line discussion text (three 40-character lines
and one 27-character line, newline-separated). -/
def sample150 : List Char :=
  List.replicate 40 'a' ++ '\n' ::
    (List.replicate 40 'b' ++ '\n' ::
      (List.replicate 40 'c' ++ '\n' :: List.replicate 27 'd'))

/-! ### Basic lemmas about the strip helpers -/

theorem dropEndP_front_split (p : Char → Bool) :
    ∀ l : List Char, ∃ z, dropEndP p l ++ z = l := by
  intro l
  induction l with
  | nil => exact ⟨[], rfl⟩
  | cons c t ih =>
    obtain ⟨z, hz⟩ := ih
    cases h : dropEndP p t with
    | nil =>
      by_cases hc : p c
      · exact ⟨c :: t, by simp [dropEndP, h, hc]⟩
      · exact ⟨t, by simp [dropEndP, h, hc]⟩
    | cons d u =>
      refine ⟨z, ?_⟩
      simp only [dropEndP, h]
      rw [h] at hz
      simpa using hz

theorem mem_dropEndP {p : Char → Bool} {x : Char} {l : List Char}
    (h : x ∈ dropEndP p l) : x ∈ l := by
  obtain ⟨z, hz⟩ := dropEndP_front_split p l
  rw [← hz]
  exact List.mem_append_left _ h

theorem mem_dropWhileP {p : Char → Bool} {x : Char} {l : List Char}
    (h : x ∈ l.dropWhile p) : x ∈ l := by
  have h2 := List.mem_append_right (l.takeWhile p) h
  rw [List.takeWhile_append_dropWhile] at h2
  exact h2

theorem mem_pyStripP {p : Char → Bool} {x : Char} {l : List Char}
    (h : x ∈ pyStripP p l) : x ∈ l :=
  mem_dropWhileP (mem_dropEndP h)

theorem getLast?_dropEndP {p : Char → Bool} {c : Char} :
    ∀ {l : List Char}, (dropEndP p l).getLast? = some c → p c = false := by
  intro l
  induction l with
  | nil => simp [dropEndP]
  | cons a t ih =>
    intro h
    simp only [dropEndP] at h
    cases hd : dropEndP p t with
    | nil =>
      rw [hd] at h
      by_cases hp : p a
      · simp [hp] at h
      · simp [hp] at h
        simp [← h]
        simpa using hp
    | cons d u =>
      rw [hd] at h
      rw [List.getLast?_cons_cons] at h
      exact ih (hd ▸ h)

theorem head?_dropWhileP {p : Char → Bool} {c : Char} {l : List Char}
    (h : (l.dropWhile p).head? = some c) : p c = false := by
  have := List.head?_dropWhile_not p l
  rw [h] at this
  simpa using this

theorem head?_pyStripP {p : Char → Bool} {c : Char} {l : List Char}
    (h : (pyStripP p l).head? = some c) : p c = false := by
  unfold pyStripP at h
  obtain ⟨z, hz⟩ := dropEndP_front_split p (l.dropWhile p)
  cases he : dropEndP p (l.dropWhile p) with
  | nil => rw [he] at h; simp at h
  | cons d u =>
    rw [he] at h
    simp at h
    rw [he] at hz
    apply head?_dropWhileP (l := l)
    rw [← hz]
    simp [h]

theorem getLast?_pyStripP {p : Char → Bool} {c : Char} {l : List Char}
    (h : (pyStripP p l).getLast? = some c) : p c = false :=
  getLast?_dropEndP h

/-! ### C10 and C9 -/

/-- C10: `FileManager.save_result` called with an empty content string
returns `false` and performs no directory creation and no file write;
the failure shows up only in the boolean result. -/
theorem save_result_empty_refuses (filename : List Char) :
    save_result [] filename = (false, []) := rfl

/-- C9: `sanitize_filename` always returns a nonempty name containing
none of the characters of the class `[<>:"/\|?*]`, with no leading or
trailing dot or space, defaulting to `"output"`; and the write
performed by `save_result` for nonempty content uses exactly the
sanitized name. -/
theorem sanitize_filename_safe (s : List Char) :
    sanitize_filename s ≠ [] ∧
    (∀ c, c ∈ sanitize_filename s → isBadFileChar c = false) ∧
    (∀ c, (sanitize_filename s).head? = some c → c ≠ '.' ∧ c ≠ ' ') ∧
    (∀ c, (sanitize_filename s).getLast? = some c → c ≠ '.' ∧ c ≠ ' ') ∧
    (∀ content, content ≠ [] →
      (save_result content s).2 =
        [FOp.mkdirs, FOp.writeFile (sanitize_filename s) content]) := by
  unfold sanitize_filename
  set repl := s.map (fun c => if isBadFileChar c then '_' else c) with hrepl
  by_cases hstr : pyStripP isDotSpace repl = []
  · simp only [hstr, if_pos rfl]
    refine ⟨by decide, ?_, by decide, by decide, ?_⟩
    · intro c hc
      fin_cases hc <;> decide
    · intro content hc
      simp [save_result, hc, sanitize_filename, hrepl, hstr]
  · simp only [hstr, if_neg hstr]
    refine ⟨hstr, ?_, ?_, ?_, ?_⟩
    · intro c hc
      have hc' : c ∈ repl := mem_pyStripP hc
      rw [hrepl] at hc'
      obtain ⟨y, _, hy⟩ := List.mem_map.mp hc'
      by_cases hb : isBadFileChar y
      · rw [if_pos hb] at hy; rw [← hy]; decide
      · rw [if_neg hb] at hy; rw [← hy]; simpa using hb
    · intro c hc
      have := head?_pyStripP hc
      simp [isDotSpace] at this
      exact this
    · intro c hc
      have := getLast?_pyStripP hc
      simp [isDotSpace] at this
      exact this
    · intro content hc
      simp [save_result, hc, sanitize_filename, hrepl, hstr]

/-- Witness for C9 at a concrete path-traversal-style filename. -/
theorem sanitize_filename_safe_witness :
    sanitize_filename ("../<evil>:name?.txt".toList) ≠ [] ∧
    (save_result ['x'] ("../<evil>:name?.txt".toList)).2 =
      [FOp.mkdirs,
       FOp.writeFile (sanitize_filename ("../<evil>:name?.txt".toList)) ['x']] ∧
    isBadFileChar '_' = false :=
  ⟨(sanitize_filename_safe _).1,
   (sanitize_filename_safe _).2.2.2.2 ['x'] (by decide),
   (sanitize_filename_safe ("../<evil>:name?.txt".toList)).2.1 '_' (by decide)⟩

/-! ### C3: extract_score -/

theorem clampScore_range (v : Nat) : 1 ≤ clampScore v ∧ clampScore v ≤ 10 := by
  unfold clampScore
  omega

/-- C3: `extract_score` works on the first line only, trying a bare
integer line, then the numerator of a `digits/digits` pattern, then the
first digit run, else the sentinel `"0"`; every extracted value is
clamped into `[1, 10]`, so the result is always `"0"` or the decimal
string of an integer between 1 and 10.  The concrete conjuncts pin the
claimed examples and the priority order (the fraction numerator `3`
beats the earlier digit run `5`) and the first-line restriction. -/
theorem extract_score_spec :
    (∀ s, extract_score s = ['0'] ∨
      ∃ n, 1 ≤ n ∧ n ≤ 10 ∧ extract_score s = natStr n) ∧
    extract_score ("7".toList) = "7".toList ∧
    extract_score ("12/10 explanation".toList) = "10".toList ∧
    extract_score [] = "0".toList ∧
    extract_score ("no numbers here".toList) = "0".toList ∧
    extract_score ("first 5 then 3/4".toList) = "3".toList ∧
    extract_score ("intro line\n7".toList) = "0".toList := by
  refine ⟨?_, by decide, by decide, by decide, by decide, by decide, by decide⟩
  intro s
  unfold extract_score
  split
  · left; rfl
  · split
    · left; rfl
    · dsimp only
      split
      · right; exact ⟨_, (clampScore_range _).1, (clampScore_range _).2, rfl⟩
      · split
        · right; exact ⟨_, (clampScore_range _).1, (clampScore_range _).2, rfl⟩
        · split
          · right; exact ⟨_, (clampScore_range _).1, (clampScore_range _).2, rfl⟩
          · left; rfl

/-! ### Shared concrete inputs for pipeline witnesses -/

/-- A well-formed discussion input: over 100 characters and 3 non-blank
lines, so it passes the content pre-flight check. -/
def contentSample : List Char :=
  ("Alice: I think the proposal is reasonable and deserves support.\n" ++
   "Bob: I disagree with several of the key points raised here.\n" ++
   "Carol: Let us examine the evidence carefully before deciding.").toList

/-- A crew output used by witnesses. -/
def crewSample : List Char :=
  "Alice: Hello there friends.\nBob: Nice to meet you all.".toList

/-! ### C1: a valid spam-stage response containing STOP rejects -/

/-- C1: when the spam-filter stage returns a response that passes
response validation and whose upper-cased text contains `"STOP"`, the
pipeline ends with the `filtered` result, executes no transformation,
scoring or output-file stage, and (being a total function built from
the exception-catching source) raises nothing to the caller. -/
theorem spam_stop_filters (content : List Char) (env : Env) (so sl : Bool)
    (r : List Char)
    (henv : env.envValid = true)
    (hc : validate_discussion_content content = true)
    (hsp : env.spamResult = Except.ok r)
    (hv : validate_agent_response r = true)
    (hstop : containsSub stopMarker (pyUpper r) = true) :
    (process_discussion content env so sl).1 = PResult.filtered ∧
    Ev.transformCall ∉ (process_discussion content env so sl).2 ∧
    Ev.scoreCall ∉ (process_discussion content env so sl).2 ∧
    Ev.writeDialogue ∉ (process_discussion content env so sl).2 ∧
    Ev.writeScore ∉ (process_discussion content env so sl).2 := by
  have hflt : run_spam_filter env = false := by
    rw [run_spam_filter, hsp]
    simp [hv, hstop]
  have hpd : process_discussion content env so sl =
      (PResult.filtered, [Ev.spamCall] ++ (if sl then [Ev.writeLog] else [])) := by
    unfold process_discussion
    rw [henv, hc, hflt]
    simp
  rw [hpd]
  refine ⟨rfl, ?_, ?_, ?_, ?_⟩ <;> cases sl <;> decide

/-- Environment for the C1 witness: the spam stage answers with an
explicit STOP verdict. -/
def stopEnv : Env :=
  { envValid := true
    spamResult := Except.ok ("STOP this is an advertisement".toList)
    crewResult := Except.ok none
    scoreResult := Except.ok ("1".toList) }

/-- Witness for C1 on a concrete valid discussion and STOP response. -/
theorem spam_stop_filters_witness :
    (process_discussion contentSample stopEnv true true).1 = PResult.filtered ∧
    Ev.transformCall ∉ (process_discussion contentSample stopEnv true true).2 :=
  ⟨(spam_stop_filters contentSample stopEnv true true _ rfl (by decide) rfl
      (by decide) (by decide)).1,
   (spam_stop_filters contentSample stopEnv true true _ rfl (by decide) rfl
      (by decide) (by decide)).2.1⟩

/-! ### C2: an invalid spam-stage response also yields "filtered" -/

/-- Environment whose spam stage returns a response too short to pass
response validation. -/
def spamShortEnv : Env :=
  { envValid := true
    spamResult := Except.ok ("short".toList)
    crewResult := Except.ok none
    scoreResult := Except.ok ("1".toList) }

/-- Counterexample to C2 as stated: the spam-filter response `"short"`
fails response validation, yet the run ends with the successful
`filtered` status, not an error result. -/
theorem spam_invalid_filtered_counterexample :
    validate_agent_response ("short".toList) = false ∧
    (process_discussion contentSample spamShortEnv true true).1 =
      PResult.filtered := by
  constructor
  · decide
  · decide

/-- C2 (amended): when the spam-filter stage response fails response
validation, or the spam-filter stage raises an exception, the pipeline
ends with the same successful `filtered` result as an explicit STOP
rejection — not with an error result — executes no later stage, and
propagates no exception to the caller. -/
theorem spam_failure_filters (content : List Char) (env : Env) (so sl : Bool)
    (henv : env.envValid = true)
    (hc : validate_discussion_content content = true)
    (hfail : (∃ e, env.spamResult = Except.error e) ∨
      (∃ r, env.spamResult = Except.ok r ∧ validate_agent_response r = false)) :
    (process_discussion content env so sl).1 = PResult.filtered ∧
    Ev.transformCall ∉ (process_discussion content env so sl).2 ∧
    Ev.scoreCall ∉ (process_discussion content env so sl).2 ∧
    Ev.writeDialogue ∉ (process_discussion content env so sl).2 ∧
    Ev.writeScore ∉ (process_discussion content env so sl).2 := by
  have hflt : run_spam_filter env = false := by
    rcases hfail with ⟨e, he⟩ | ⟨r, hr, hv⟩
    · rw [run_spam_filter, he]
    · rw [run_spam_filter, hr]
      simp [hv]
  have hpd : process_discussion content env so sl =
      (PResult.filtered, [Ev.spamCall] ++ (if sl then [Ev.writeLog] else [])) := by
    unfold process_discussion
    rw [henv, hc, hflt]
    simp
  rw [hpd]
  refine ⟨rfl, ?_, ?_, ?_, ?_⟩ <;> cases sl <;> decide

/-- Environment whose spam stage raises an exception. -/
def spamRaiseEnv : Env :=
  { envValid := true
    spamResult := Except.error ("connection reset".toList)
    crewResult := Except.ok none
    scoreResult := Except.ok ("1".toList) }

/-- Witness for the amended C2 at a concrete raising spam stage. -/
theorem spam_failure_filters_witness :
    (process_discussion contentSample spamRaiseEnv false true).1 =
      PResult.filtered :=
  (spam_failure_filters contentSample spamRaiseEnv false true rfl (by decide)
    (Or.inl ⟨_, rfl⟩)).1

/-! ### C7: log flushing at terminal states -/

/-- Environment with a missing credential. -/
def noKeyEnv : Env :=
  { envValid := false
    spamResult := Except.ok ("fine response text".toList)
    crewResult := Except.ok none
    scoreResult := Except.ok ("1".toList) }

/-- Counterexample to C7 as stated: with log persistence enabled, a run
that terminates in the environment-check error state writes no log
file at all. -/
theorem log_skipped_on_env_error_counterexample :
    (process_discussion contentSample noKeyEnv true true).1 =
      PResult.perror envErrMsg ∧
    Ev.writeLog ∉ (process_discussion contentSample noKeyEnv true true).2 := by
  constructor
  · rfl
  · decide

/-- C7 (amended): with log persistence enabled, every run that passes
the environment and content pre-flight checks flushes the log buffer
in all of its terminal states — `filtered`, success, or error; runs
stopped by the two pre-flight checks return an error result without
writing a log file. -/
theorem log_written_past_preflight (content : List Char) (env : Env) (so : Bool)
    (henv : env.envValid = true)
    (hc : validate_discussion_content content = true) :
    Ev.writeLog ∈ (process_discussion content env so true).2 := by
  unfold process_discussion
  rw [henv, hc]
  simp only [Bool.not_true, Bool.false_eq_true, if_false, if_true]
  by_cases hsf : run_spam_filter env
  · rw [hsf]
    simp only [Bool.not_true, Bool.false_eq_true, if_false]
    cases htr : run_dialogue_transformation env with
    | none => simp
    | some dialogue => simp
  · rw [Bool.not_eq_true] at hsf
    rw [hsf]
    simp

/-- Witness for the amended C7 on a concrete post-pre-flight run. -/
theorem log_written_past_preflight_witness :
    Ev.writeLog ∈ (process_discussion contentSample spamShortEnv false true).2 :=
  log_written_past_preflight contentSample spamShortEnv false rfl (by decide)

/-! ### C8: scoring is non-fatal -/

/-- C8: an empty or whitespace-only dialogue short-circuits
`score_dialogue` to the sentinel `"0"` without invoking the scoring
stage; and when the scoring stage raises or returns a response failing
response validation, the pipeline still completes with a success
result carrying the cleaned dialogue and the sentinel score `"0"`. -/
theorem scoring_nonfatal :
    (∀ d env, pyStrip d = [] → score_dialogue d env = (['0'], [])) ∧
    (∀ (content : List Char) (env : Env) (so sl : Bool) (s : List Char),
      env.envValid = true →
      validate_discussion_content content = true →
      run_spam_filter env = true →
      env.crewResult = Except.ok (some s) →
      pyStrip s ≠ [] →
      pyStrip (clean_dialogue s) ≠ [] →
      ((∃ e, env.scoreResult = Except.error e) ∨
       (∃ r, env.scoreResult = Except.ok r ∧ validate_agent_response r = false)) →
      (process_discussion content env so sl).1 =
        PResult.success (clean_dialogue s) ['0']) := by
  constructor
  · intro d env hd
    unfold score_dialogue
    by_cases hd0 : d = []
    · rw [if_pos hd0]
    · rw [if_neg hd0, if_pos hd]
  · intro content env so sl s henv hc hsf hcrew hs hcl hscore
    have htr : run_dialogue_transformation env = some (clean_dialogue s) := by
      unfold run_dialogue_transformation
      rw [hcrew]
      simp only [validate_crew_result]
      rw [if_neg hs]
      simp only [Bool.not_true, Bool.false_eq_true, if_false]
      rw [if_neg hcl]
    have hcl0 : clean_dialogue s ≠ [] := by
      intro h0
      apply hcl
      rw [h0]
      rfl
    have hsc : score_dialogue (clean_dialogue s) env = (['0'], [Ev.scoreCall]) := by
      unfold score_dialogue
      rw [if_neg hcl0, if_neg hcl]
      rcases hscore with ⟨e, he⟩ | ⟨r, hr, hv⟩
      · rw [he]
      · rw [hr]
        simp [hv]
    unfold process_discussion
    rw [henv, hc, hsf, htr]
    simp only [Bool.not_true, Bool.false_eq_true, if_false, if_true]
    rw [hsc]

/-- Environment for the C8 witness: a passing spam stage, a usable crew
result, and a scoring stage that raises. -/
def scoreRaiseEnv : Env :=
  { envValid := true
    spamResult := Except.ok ("This looks like a genuine discussion".toList)
    crewResult := Except.ok (some crewSample)
    scoreResult := Except.error ("rate limit exceeded".toList) }

/-- Witness for C8 at concrete inputs. -/
theorem scoring_nonfatal_witness :
    score_dialogue ("   ".toList) scoreRaiseEnv = (['0'], []) ∧
    (process_discussion contentSample scoreRaiseEnv true true).1 =
      PResult.success (clean_dialogue crewSample) ['0'] :=
  ⟨scoring_nonfatal.1 ("   ".toList) scoreRaiseEnv (by decide),
   scoring_nonfatal.2 contentSample scoreRaiseEnv true true crewSample rfl
     (by decide) (by decide) rfl (by decide) (by decide) (Or.inl ⟨_, rfl⟩)⟩

/-! ### C5: paragraph breaks are not preserved by clean_dialogue -/

/-- C5: evaluation of `clean_dialogue` at a text with a paragraph break
(two blank lines).  The `\s+` collapsing pass runs before the
multiple-newline substitution and turns every newline into a space, so
the output is the single line `"a b"`: no blank line survives, which
contradicts the claimed (and comment-documented) preservation of
paragraph breaks as one blank line. -/
theorem clean_dialogue_drops_paragraph_breaks :
    clean_dialogue ("a\n\n\n\nb".toList) = "a b".toList ∧
    ('\n' ∈ clean_dialogue ("a\n\n\n\nb".toList) → False) := by
  constructor
  · decide
  · decide

/-! ### Lemmas about memB and noPairB -/

theorem memB_iff_mem {b : Char} : ∀ {l : List Char}, memB b l = true ↔ b ∈ l := by
  intro l
  induction l with
  | nil => simp [memB]
  | cons c t ih =>
    simp [memB, ih]
    constructor
    · rintro (h | h)
      · exact Or.inl h.symm
      · exact Or.inr h
    · rintro (h | h)
      · exact Or.inl h.symm
      · exact Or.inr h

theorem memB_false_of_sublist {a : Char} {l' l : List Char}
    (hs : List.Sublist l' l) (h : memB a l = false) : memB a l' = false := by
  by_contra hne
  rw [Bool.not_eq_false] at hne
  have := hs.mem (memB_iff_mem.mp hne)
  rw [← memB_iff_mem] at this
  rw [h] at this
  exact Bool.false_ne_true this

theorem noPairB_of_memB_false {a b : Char} :
    ∀ {t : List Char}, memB b t = false → noPairB a b t = true := by
  intro t
  induction t with
  | nil => intro _; rfl
  | cons c u ih =>
    intro h
    simp [memB] at h
    unfold noPairB
    by_cases hc : c = a
    · rw [if_pos hc]
      simp [h.2]
    · rw [if_neg hc]
      exact ih h.2

theorem noPairB_sublist {a b : Char} {l' l : List Char}
    (hs : List.Sublist l' l) (h : noPairB a b l = true) : noPairB a b l' = true := by
  induction hs with
  | slnil => rfl
  | cons c hs ih =>
    apply ih
    unfold noPairB at h
    by_cases hc : c = a
    · rw [if_pos hc] at h
      simp at h
      exact noPairB_of_memB_false (by simpa using h)
    · rwa [if_neg hc] at h
  | cons₂ c hs ih =>
    unfold noPairB
    unfold noPairB at h
    by_cases hc : c = a
    · rw [if_pos hc] at h ⊢
      simp at h ⊢
      exact memB_false_of_sublist hs (by simpa using h)
    · rw [if_neg hc] at h ⊢
      exact ih h

/-! ### Lemmas about the bracket-removal scanner -/

theorem rdAux_sublist (a b : Char) :
    ∀ (s : List Char) (buf : Option (List Char)),
      List.Sublist (rdAux a b buf s)
        ((match buf with | none => [] | some l => l.reverse) ++ s) := by
  intro s
  induction s with
  | nil =>
    intro buf
    cases buf with
    | none => simp [rdAux]
    | some l => simp [rdAux]
  | cons c t ih =>
    intro buf
    cases buf with
    | none =>
      simp only [rdAux, List.nil_append]
      by_cases hc : c = a
      · rw [if_pos hc]
        have h := ih (some [c])
        simpa using h
      · rw [if_neg hc]
        exact (ih none).cons₂ c
    | some l =>
      simp only [rdAux]
      by_cases hc : c = b
      · rw [if_pos hc]
        have h := ih none
        simp at h
        exact h.trans ((List.sublist_cons_self c t).trans
          (List.sublist_append_right _ _))
      · rw [if_neg hc]
        have h := ih (some (c :: l))
        simpa using h

theorem rdAux_none_sublist (a b : Char) (s : List Char) :
    List.Sublist (rdAux a b none s) s := by
  have h := rdAux_sublist a b s none
  simpa using h

theorem rd_bufno {a b : Char} :
    ∀ {s : List Char} (l : List Char), memB b s = false →
      rdAux a b (some l) s = l.reverse ++ s := by
  intro s
  induction s with
  | nil => intro l _; simp [rdAux]
  | cons c t ih =>
    intro l h
    simp [memB] at h
    simp only [rdAux]
    rw [if_neg h.1]
    rw [ih (c :: l) h.2]
    simp

theorem rd_buf {a b : Char} :
    ∀ {s : List Char} (l : List Char), memB b s = true →
      ∃ post : List Char, post.length < s.length ∧
        rdAux a b (some l) s = rdAux a b none post := by
  intro s
  induction s with
  | nil => intro l h; simp [memB] at h
  | cons c t ih =>
    intro l h
    by_cases hc : c = b
    · refine ⟨t, by simp, ?_⟩
      simp only [rdAux]
      rw [if_pos hc]
    · simp [memB, hc] at h
      obtain ⟨post, hlen, heq⟩ := ih (c :: l) h
      refine ⟨post, by simp; omega, ?_⟩
      simp only [rdAux]
      rw [if_neg hc]
      exact heq

theorem rd_noPair (a b : Char) :
    ∀ (n : Nat) (s : List Char), s.length ≤ n →
      noPairB a b (rdAux a b none s) = true := by
  intro n
  induction n with
  | zero =>
    intro s hs
    have : s = [] := List.length_eq_zero.mp (Nat.le_zero.mp hs)
    subst this
    rfl
  | succ n ih =>
    intro s hs
    cases s with
    | nil => rfl
    | cons c t =>
      simp only [List.length_cons, Nat.succ_le_succ_iff] at hs
      simp only [rdAux]
      by_cases hc : c = a
      · rw [if_pos hc]
        cases hm : memB b t with
        | false =>
          rw [rd_bufno [c] hm]
          simp only [List.reverse_cons, List.reverse_nil, List.nil_append,
            List.cons_append, List.nil_append]
          unfold noPairB
          rw [if_pos hc]
          simp [hm]
        | true =>
          obtain ⟨post, hlen, heq⟩ := rd_buf [c] hm
          rw [heq]
          exact ih post (by omega)
      · rw [if_neg hc]
        unfold noPairB
        rw [if_neg hc]
        exact ih t hs

theorem rd_id {a b : Char} :
    ∀ {s : List Char}, noPairB a b s = true → rdAux a b none s = s := by
  intro s
  induction s with
  | nil => intro _; rfl
  | cons c t ih =>
    intro h
    unfold noPairB at h
    simp only [rdAux]
    by_cases hc : c = a
    · rw [if_pos hc] at h
      rw [if_pos hc]
      simp at h
      rw [rd_bufno [c] (by simpa using h)]
      simp
    · rw [if_neg hc] at h
      rw [if_neg hc, ih h]

/-! ### Lemmas about wsOK and the whitespace-collapsing scanner -/

theorem wsOK_tail {c : Char} {t : List Char} (h : wsOK (c :: t) = true) :
    wsOK t = true := by
  cases t with
  | nil => rfl
  | cons d u =>
    unfold wsOK at h
    simp only [Bool.and_eq_true] at h
    exact h.2

theorem wsOK_head_sp {c : Char} {t : List Char} (h : wsOK (c :: t) = true)
    (hws : isWS c = true) : c = ' ' := by
  cases t with
  | nil =>
    unfold wsOK at h
    simp [hws] at h
    exact h
  | cons d u =>
    unfold wsOK at h
    simp only [Bool.and_eq_true] at h
    have := h.1
    simp [hws] at this
    exact this.1

theorem wsOK_head2 {c d : Char} {t : List Char} (h : wsOK (c :: d :: t) = true)
    (hws : isWS c = true) : isWS d = false := by
  unfold wsOK at h
  simp only [Bool.and_eq_true] at h
  have := h.1
  simp [hws] at this
  exact this.2

theorem wsOK_cons_nonws {c : Char} {t : List Char} (hc : isWS c = false)
    (h : wsOK t = true) : wsOK (c :: t) = true := by
  cases t with
  | nil => simp [wsOK, hc]
  | cons d u =>
    unfold wsOK
    simp [hc, h]

theorem wsOK_cons_sp {t : List Char} (h : wsOK t = true)
    (hh : t = [] ∨ ∃ d u, t = d :: u ∧ isWS d = false) :
    wsOK (' ' :: t) = true := by
  rcases hh with rfl | ⟨d, u, rfl, hd⟩
  · rfl
  · unfold wsOK
    simp [hd, h]

theorem wsOK_append_right : ∀ {l u : List Char}, wsOK (l ++ u) = true →
    wsOK u = true := by
  intro l
  induction l with
  | nil => intro u h; exact h
  | cons c t ih =>
    intro u h
    exact ih (wsOK_tail h)

theorem wsOK_cons_cons (c d : Char) (t : List Char) :
    wsOK (c :: d :: t) =
      (((!(isWS c)) || (c = ' ' && !(isWS d))) && wsOK (d :: t)) := rfl

theorem wsOK_append_left : ∀ {l u : List Char}, wsOK (l ++ u) = true →
    wsOK l = true := by
  intro l
  induction l with
  | nil => intro u _; rfl
  | cons c t ih =>
    intro u h
    rw [List.cons_append] at h
    cases t with
    | nil =>
      cases u with
      | nil => simpa using h
      | cons d v =>
        rw [List.nil_append, wsOK_cons_cons] at h
        simp only [Bool.and_eq_true] at h
        have h1 := h.1
        show (!(isWS c) || (c = ' ')) = true
        simp only [Bool.or_eq_true, Bool.and_eq_true] at h1
        rcases h1 with h2 | h2
        · simp [h2]
        · simp [h2.1]
    | cons d t' =>
      rw [List.cons_append, wsOK_cons_cons] at h
      rw [wsOK_cons_cons]
      simp only [Bool.and_eq_true] at h ⊢
      refine ⟨h.1, ?_⟩
      apply ih (u := u)
      rw [List.cons_append]
      exact h.2

theorem wsOK_mem_sp : ∀ {s : List Char}, wsOK s = true → ∀ {c : Char},
    c ∈ s → isWS c = true → c = ' ' := by
  intro s
  induction s with
  | nil => intro _ c hc; simp at hc
  | cons d t ih =>
    intro h c hc hws
    rcases List.mem_cons.mp hc with rfl | hc
    · exact wsOK_head_sp h hws
    · exact ih (wsOK_tail h) hc hws

theorem cw_nonws_head {c : Char} {t : List Char} (hc : isWS c = false)
    (fl : Bool) : cwAux fl (c :: t) = c :: cwAux false t := by
  cases fl <;> simp [cwAux, hc]

theorem cwAux_ws_false {c : Char} {t : List Char} (hc : isWS c = true) :
    cwAux false (c :: t) = ' ' :: cwAux true t := by
  simp [cwAux, hc]

theorem cwAux_ws_true {c : Char} {t : List Char} (hc : isWS c = true) :
    cwAux true (c :: t) = cwAux true t := by
  simp [cwAux, hc]

theorem cw_true_head : ∀ {t : List Char} {h : Char},
    (cwAux true t).head? = some h → isWS h = false := by
  intro t
  induction t with
  | nil => intro h hh; simp [cwAux] at hh
  | cons c u ih =>
    intro h hh
    by_cases hc : isWS c
    · simp [cwAux, hc] at hh
      exact ih hh
    · rw [cw_nonws_head (by simpa using hc)] at hh
      simp at hh
      rw [← hh]
      simpa using hc

theorem cw_mem : ∀ {fl : Bool} {s : List Char} {x : Char},
    x ∈ cwAux fl s → x = ' ' ∨ x ∈ s := by
  intro fl s
  induction s generalizing fl with
  | nil => intro x hx; simp [cwAux] at hx
  | cons c t ih =>
    intro x hx
    by_cases hc : isWS c
    · cases fl with
      | true =>
        simp only [cwAux, if_pos hc] at hx
        rcases ih hx with h | h
        · exact Or.inl h
        · exact Or.inr (List.mem_cons_of_mem c h)
      | false =>
        simp only [cwAux, if_pos hc] at hx
        rcases List.mem_cons.mp hx with rfl | hx
        · exact Or.inl rfl
        · rcases ih hx with h | h
          · exact Or.inl h
          · exact Or.inr (List.mem_cons_of_mem c h)
    · rw [cw_nonws_head (by simpa using hc)] at hx
      rcases List.mem_cons.mp hx with rfl | hx
      · exact Or.inr (List.mem_cons_self x t)
      · rcases ih hx with h | h
        · exact Or.inl h
        · exact Or.inr (List.mem_cons_of_mem c h)

theorem cw_wsOK : ∀ (s : List Char) (fl : Bool), wsOK (cwAux fl s) = true := by
  intro s
  induction s with
  | nil => intro fl; rfl
  | cons c t ih =>
    intro fl
    by_cases hc : isWS c
    · cases fl with
      | true =>
        simp only [cwAux, if_pos hc]
        exact ih true
      | false =>
        simp only [cwAux, if_pos hc]
        apply wsOK_cons_sp (ih true)
        cases hX : cwAux true t with
        | nil => exact Or.inl rfl
        | cons d u =>
          refine Or.inr ⟨d, u, rfl, ?_⟩
          apply cw_true_head (t := t)
          rw [hX]
          rfl
    · rw [cw_nonws_head (by simpa using hc)]
      exact wsOK_cons_nonws (by simpa using hc) (ih false)

theorem cw_id : ∀ {s : List Char}, wsOK s = true → cwAux false s = s := by
  intro s
  induction s with
  | nil => intro _; rfl
  | cons c t ih =>
    intro h
    by_cases hc : isWS c
    · have hsp : c = ' ' := wsOK_head_sp h hc
      rw [cwAux_ws_false hc]
      cases t with
      | nil => rw [hsp]; rfl
      | cons d u =>
        have hd : isWS d = false := wsOK_head2 h hc
        have ht := ih (wsOK_tail h)
        rw [cw_nonws_head hd true]
        rw [cw_nonws_head hd false] at ht
        rw [List.cons.injEq] at ht
        rw [ht.2, hsp]
    · rw [cw_nonws_head (by simpa using hc)]
      rw [ih (wsOK_tail h)]

theorem cw_noPair {a b : Char} (ha : isWS a = false) (hb : isWS b = false) :
    ∀ {s : List Char} (fl : Bool), noPairB a b s = true →
      noPairB a b (cwAux fl s) = true := by
  have hsp_a : ' ' ≠ a := by
    intro h
    rw [← h] at ha
    simp [isWS] at ha
  have hsp_b : b ≠ ' ' := by
    intro h
    rw [h] at hb
    simp [isWS] at hb
  intro s
  induction s with
  | nil => intro fl _; cases fl <;> rfl
  | cons c t ih =>
    intro fl h
    by_cases hc : isWS c
    · have hca : c ≠ a := by
        intro hh
        rw [hh] at hc
        rw [ha] at hc
        exact Bool.false_ne_true hc
      have ht : noPairB a b t = true := by
        unfold noPairB at h
        rwa [if_neg hca] at h
      cases fl with
      | true =>
        rw [cwAux_ws_true hc]
        exact ih true ht
      | false =>
        rw [cwAux_ws_false hc]
        unfold noPairB
        rw [if_neg hsp_a]
        exact ih true ht
    · rw [cw_nonws_head (by simpa using hc)]
      by_cases hca : c = a
      · unfold noPairB at h ⊢
        rw [if_pos hca] at h ⊢
        simp only [Bool.not_eq_true'] at h ⊢
        by_contra hne
        rw [Bool.not_eq_false] at hne
        have hbmem := memB_iff_mem.mp hne
        rcases cw_mem hbmem with h1 | h1
        · exact hsp_b h1
        · rw [← memB_iff_mem] at h1
          rw [h] at h1
          exact Bool.false_ne_true h1
      · unfold noPairB at h ⊢
        rw [if_neg hca] at h ⊢
        exact ih false h

/-! ### Identity lemmas for the newline substitution and line pass -/

theorem matchNlPat_none {c : Char} {t : List Char} (hc : c ≠ '\n') :
    matchNlPat (c :: t) = none := by
  simp [matchNlPat, hc]

theorem nlSubF_id : ∀ (f : Nat) (s : List Char), s.length ≤ f →
    (∀ c ∈ s, c ≠ '\n') → nlSubF f s = s := by
  intro f
  induction f with
  | zero =>
    intro s hs _
    have : s = [] := List.length_eq_zero.mp (Nat.le_zero.mp hs)
    subst this
    rfl
  | succ n ih =>
    intro s hs hnl
    cases s with
    | nil => rfl
    | cons c t =>
      have hc : c ≠ '\n' := hnl c (List.mem_cons_self c t)
      simp only [nlSubF, matchNlPat_none hc]
      rw [ih t (by simpa using hs) (fun d hd => hnl d (List.mem_cons_of_mem c hd))]

theorem nlSub_id {s : List Char} (h : ∀ c ∈ s, c ≠ '\n') : nlSub s = s :=
  nlSubF_id s.length s Nat.le.refl h

theorem splitNl_no_nl : ∀ {s : List Char}, ('\n' ∉ s) → splitNl s = [s] := by
  intro s
  induction s with
  | nil => intro _; rfl
  | cons c t ih =>
    intro h
    have hc : ¬(c = '\n') := fun e => h (e ▸ List.mem_cons_self c t)
    simp only [splitNl, if_neg hc]
    rw [ih (fun hm => h (List.mem_cons_of_mem c hm))]
    rfl

theorem dropWhile_eq_self_of_head {p : Char → Bool} {l : List Char}
    (h : ∀ c, l.head? = some c → p c = false) : l.dropWhile p = l := by
  cases l with
  | nil => rfl
  | cons c t =>
    rw [List.dropWhile_cons, if_neg]
    rw [h c rfl]
    simp

theorem dropEndP_idem (p : Char → Bool) :
    ∀ l : List Char, dropEndP p (dropEndP p l) = dropEndP p l := by
  intro l
  induction l with
  | nil => rfl
  | cons c t ih =>
    cases h : dropEndP p t with
    | nil =>
      simp only [dropEndP, h]
      by_cases hc : p c
      · rw [if_pos hc]; rfl
      · rw [if_neg hc]
        simp only [dropEndP]
        rw [if_neg hc]
    | cons d u =>
      rw [h] at ih
      have hct : dropEndP p (c :: t) = c :: d :: u := by
        show (match dropEndP p t with
          | [] => if p c then [] else [c]
          | d :: u => c :: d :: u) = c :: d :: u
        rw [h]
      rw [hct]
      show (match dropEndP p (d :: u) with
        | [] => if p c then [] else [c]
        | e :: v => c :: e :: v) = c :: d :: u
      rw [ih]

theorem head?_of_dropEndP {p : Char → Bool} {l : List Char} {c : Char}
    (h : (dropEndP p l).head? = some c) : l.head? = some c := by
  obtain ⟨z, hz⟩ := dropEndP_front_split p l
  cases he : dropEndP p l with
  | nil => rw [he] at h; simp at h
  | cons d u =>
    rw [he] at h hz
    simp at h
    rw [← hz]
    simp [h]

theorem pyStripP_idem (p : Char → Bool) (l : List Char) :
    pyStripP p (pyStripP p l) = pyStripP p l := by
  unfold pyStripP
  have h1 : (dropEndP p (l.dropWhile p)).dropWhile p =
      dropEndP p (l.dropWhile p) := by
    apply dropWhile_eq_self_of_head
    intro c hc
    exact head?_dropWhileP (head?_of_dropEndP hc)
  rw [h1, dropEndP_idem]

theorem linePass_no_nl {s : List Char} (h : '\n' ∉ s) :
    linePass s = pyStrip s := by
  unfold linePass
  rw [splitNl_no_nl h]
  simp only [List.map_cons, List.map_nil]
  by_cases he : pyStrip s = []
  · rw [he]
    rfl
  · have hne : (pyStrip s).isEmpty = false := by
      cases hq : pyStrip s with
      | nil => exact absurd hq he
      | cons d u => rfl
    have hf : List.filter (fun l => !l.isEmpty) [pyStrip s] = [pyStrip s] := by
      simp [List.filter_cons, hne]
    rw [hf]
    show pyStrip (pyStrip s) = pyStrip s
    exact pyStripP_idem isWS s

theorem dropWhileP_sublist (p : Char → Bool) (l : List Char) :
    List.Sublist (l.dropWhile p) l := by
  have h := List.sublist_append_right (l.takeWhile p) (l.dropWhile p)
  rwa [List.takeWhile_append_dropWhile] at h

theorem dropEndP_sublist (p : Char → Bool) (l : List Char) :
    List.Sublist (dropEndP p l) l := by
  obtain ⟨z, hz⟩ := dropEndP_front_split p l
  have h := List.sublist_append_left (dropEndP p l) z
  rwa [hz] at h

theorem pyStripP_sublist (p : Char → Bool) (l : List Char) :
    List.Sublist (pyStripP p l) l :=
  (dropEndP_sublist p (l.dropWhile p)).trans (dropWhileP_sublist p l)

theorem wsOK_pyStripP {p : Char → Bool} {l : List Char} (h : wsOK l = true) :
    wsOK (pyStripP p l) = true := by
  have h1 : wsOK (l.dropWhile p) = true := by
    apply wsOK_append_right (l := l.takeWhile p)
    rwa [List.takeWhile_append_dropWhile]
  obtain ⟨z, hz⟩ := dropEndP_front_split p (l.dropWhile p)
  apply wsOK_append_left (u := z)
  show wsOK (dropEndP p (List.dropWhile p l) ++ z) = true
  rw [hz]
  exact h1

/-! ### C4: clean_dialogue is idempotent -/

/-- C4: `clean_dialogue` is idempotent: its output contains no closable
bracket pair of any of the three kinds, is fully whitespace-collapsed,
contains no newline and is stripped, so every pass of a second
application leaves it unchanged. -/
theorem clean_dialogue_idem (x : List Char) :
    clean_dialogue (clean_dialogue x) = clean_dialogue x := by
  by_cases hx : x = []
  · subst hx; rfl
  · have hOdef : clean_dialogue x =
        linePass (nlSub (collapseWS (removeDelim '{' '}'
          (removeDelim '[' ']' (removeDelim '(' ')' x))))) := by
      unfold clean_dialogue
      rw [if_neg hx]
    set c3 := removeDelim '{' '}' (removeDelim '[' ']' (removeDelim '(' ')' x))
      with hc3
    set w := collapseWS c3 with hw
    have np1 : noPairB '(' ')' (removeDelim '(' ')' x) = true :=
      rd_noPair '(' ')' x.length x Nat.le.refl
    have np1b : noPairB '(' ')' (removeDelim '[' ']' (removeDelim '(' ')' x)) = true :=
      noPairB_sublist (rdAux_none_sublist '[' ']' (removeDelim '(' ')' x)) np1
    have np1c : noPairB '(' ')' c3 = true :=
      noPairB_sublist
        (rdAux_none_sublist '{' '}' (removeDelim '[' ']' (removeDelim '(' ')' x))) np1b
    have np2 : noPairB '[' ']' (removeDelim '[' ']' (removeDelim '(' ')' x)) = true :=
      rd_noPair '[' ']' (removeDelim '(' ')' x).length (removeDelim '(' ')' x)
        Nat.le.refl
    have np2c : noPairB '[' ']' c3 = true :=
      noPairB_sublist
        (rdAux_none_sublist '{' '}' (removeDelim '[' ']' (removeDelim '(' ')' x))) np2
    have np3c : noPairB '{' '}' c3 = true :=
      rd_noPair '{' '}' (removeDelim '[' ']' (removeDelim '(' ')' x)).length
        (removeDelim '[' ']' (removeDelim '(' ')' x)) Nat.le.refl
    have hwOK : wsOK w = true := cw_wsOK c3 false
    have np1w : noPairB '(' ')' w = true := cw_noPair (by decide) (by decide) false np1c
    have np2w : noPairB '[' ']' w = true := cw_noPair (by decide) (by decide) false np2c
    have np3w : noPairB '{' '}' w = true := cw_noPair (by decide) (by decide) false np3c
    have hnlw : ∀ c ∈ w, c ≠ '\n' := by
      intro c hc he
      subst he
      have := wsOK_mem_sp hwOK hc (by decide)
      exact absurd this (by decide)
    have hnw : '\n' ∉ w := fun hm => hnlw '\n' hm rfl
    have hO : clean_dialogue x = pyStrip w := by
      rw [hOdef, nlSub_id hnlw, linePass_no_nl hnw]
    have hsubO : List.Sublist (pyStrip w) w := pyStripP_sublist isWS w
    have npO1 : noPairB '(' ')' (pyStrip w) = true := noPairB_sublist hsubO np1w
    have npO2 : noPairB '[' ']' (pyStrip w) = true := noPairB_sublist hsubO np2w
    have npO3 : noPairB '{' '}' (pyStrip w) = true := noPairB_sublist hsubO np3w
    have hOOK : wsOK (pyStrip w) = true := wsOK_pyStripP hwOK
    have hnlO : '\n' ∉ pyStrip w := fun hm => hnw (hsubO.mem hm)
    rw [hO]
    by_cases hOe : pyStrip w = []
    · rw [hOe]; rfl
    · unfold clean_dialogue
      rw [if_neg hOe]
      rw [show removeDelim '(' ')' (pyStrip w) = pyStrip w from rd_id npO1]
      rw [show removeDelim '[' ']' (pyStrip w) = pyStrip w from rd_id npO2]
      rw [show removeDelim '{' '}' (pyStrip w) = pyStrip w from rd_id npO3]
      show linePass (nlSub (cwAux false (pyStrip w))) = pyStrip w
      rw [cw_id hOOK]
      rw [nlSub_id (fun c hc he => hnlO (he ▸ hc))]
      rw [linePass_no_nl hnlO]
      exact pyStripP_idem isWS w

/-! ### Counting non-blank lines is invariant under stripping -/

theorem splitNl_ne_nil : ∀ t : List Char, splitNl t ≠ [] := by
  intro t
  cases t with
  | nil => simp [splitNl]
  | cons c u =>
    simp only [splitNl]
    by_cases hc : c = '\n'
    · rw [if_pos hc]; simp
    · rw [if_neg hc]; simp

theorem modLast_cons {f : List Char → List Char} {x : List Char}
    {L : List (List Char)} (h : L ≠ []) :
    modLast f (x :: L) = x :: modLast f L := by
  cases L with
  | nil => exact absurd rfl h
  | cons y r => rfl

theorem splitNl_append :
    ∀ (u : List Char) {v h : List Char} {r : List (List Char)},
      splitNl v = h :: r →
      splitNl (u ++ v) = modLast (fun l => l ++ h) (splitNl u) ++ r := by
  intro u
  induction u with
  | nil =>
    intro v h r hv
    simpa [splitNl, modLast] using hv
  | cons c u' ih =>
    intro v h r hv
    by_cases hc : c = '\n'
    · rw [List.cons_append]
      simp only [splitNl, if_pos hc]
      rw [ih hv]
      rw [modLast_cons (splitNl_ne_nil u')]
      rfl
    · rw [List.cons_append]
      simp only [splitNl, if_neg hc]
      rw [ih hv]
      obtain ⟨h₂, r₂, hu'⟩ : ∃ h₂ r₂, splitNl u' = h₂ :: r₂ := by
        cases hq : splitNl u' with
        | nil => exact absurd hq (splitNl_ne_nil u')
        | cons a b => exact ⟨a, b, rfl⟩
      rw [hu']
      cases r₂ with
      | nil => simp [modLast]
      | cons y r₂' =>
        have hm : modLast (fun l => l ++ h) (h₂ :: y :: r₂') =
            h₂ :: modLast (fun l => l ++ h) (y :: r₂') := rfl
        have hm2 : modLast (fun l => l ++ h) ((c :: h₂) :: y :: r₂') =
            (c :: h₂) :: modLast (fun l => l ++ h) (y :: r₂') := rfl
        rw [hm]
        simp only [List.cons_append, List.headD_cons, List.tail_cons]
        rw [hm2]
        rw [List.cons_append]

theorem dropWhile_allP {p : Char → Bool} :
    ∀ {l : List Char}, (∀ c ∈ l, p c = true) → l.dropWhile p = [] := by
  intro l
  induction l with
  | nil => intro _; rfl
  | cons c t ih =>
    intro h
    rw [List.dropWhile_cons, if_pos (h c (List.mem_cons_self c t))]
    exact ih (fun d hd => h d (List.mem_cons_of_mem c hd))

theorem dropWhile_append_ne {p : Char → Bool} :
    ∀ {l : List Char} {d : Char} {u m : List Char},
      l.dropWhile p = d :: u → (l ++ m).dropWhile p = d :: u ++ m := by
  intro l
  induction l with
  | nil =>
    intro d u m h
    simp at h
  | cons c t ih =>
    intro d u m h
    rw [List.dropWhile_cons] at h
    by_cases hc : p c
    · rw [if_pos hc] at h
      rw [List.cons_append, List.dropWhile_cons, if_pos hc]
      exact ih h
    · rw [if_neg hc] at h
      rw [List.cons_append, List.dropWhile_cons, if_neg hc]
      rw [List.cons.injEq] at h
      rw [h.1, ← h.2, List.cons_append]

theorem dropWhile_append_nil {p : Char → Bool} :
    ∀ {l m : List Char}, l.dropWhile p = [] →
      (l ++ m).dropWhile p = m.dropWhile p := by
  intro l
  induction l with
  | nil => intro m _; rfl
  | cons c t ih =>
    intro m h
    rw [List.dropWhile_cons] at h
    by_cases hc : p c
    · rw [if_pos hc] at h
      rw [List.cons_append, List.dropWhile_cons, if_pos hc]
      exact ih h
    · rw [if_neg hc] at h
      exact absurd h (by simp)

theorem dropEndP_allP {p : Char → Bool} :
    ∀ {l : List Char}, (∀ c ∈ l, p c = true) → dropEndP p l = [] := by
  intro l
  induction l with
  | nil => intro _; rfl
  | cons c t ih =>
    intro h
    have ht := ih (fun d hd => h d (List.mem_cons_of_mem c hd))
    show (match dropEndP p t with
      | [] => if p c then [] else [c]
      | d :: u => c :: d :: u) = []
    rw [ht]
    rw [if_pos (h c (List.mem_cons_self c t))]

theorem dropEndP_append_allP {p : Char → Bool} {wl : List Char}
    (hwl : ∀ c ∈ wl, p c = true) :
    ∀ x : List Char, dropEndP p (x ++ wl) = dropEndP p x := by
  intro x
  induction x with
  | nil =>
    rw [List.nil_append]
    exact dropEndP_allP hwl
  | cons c x' ih =>
    rw [List.cons_append]
    show (match dropEndP p (x' ++ wl) with
      | [] => if p c then [] else [c]
      | d :: u => c :: d :: u) =
      (match dropEndP p x' with
      | [] => if p c then [] else [c]
      | d :: u => c :: d :: u)
    rw [ih]

theorem pyStripP_append_allP {p : Char → Bool} {wl : List Char}
    (hwl : ∀ c ∈ wl, p c = true) (x : List Char) :
    pyStripP p (x ++ wl) = pyStripP p x := by
  unfold pyStripP
  cases hdw : x.dropWhile p with
  | nil =>
    rw [dropWhile_append_nil hdw, dropWhile_allP hwl]
  | cons d u =>
    rw [dropWhile_append_ne hdw]
    rw [show d :: u ++ wl = (d :: u) ++ wl from rfl]
    rw [dropEndP_append_allP hwl]

theorem pyStripP_cons_P {p : Char → Bool} {c : Char} (hc : p c = true)
    (l : List Char) : pyStripP p (c :: l) = pyStripP p l := by
  unfold pyStripP
  rw [List.dropWhile_cons, if_pos hc]

theorem splitNl_mem : ∀ {v l : List Char}, l ∈ splitNl v →
    ∀ {c : Char}, c ∈ l → c ∈ v := by
  intro v
  induction v with
  | nil =>
    intro l hl c hc
    simp [splitNl] at hl
    subst hl
    simp at hc
  | cons a t ih =>
    intro l hl c hc
    by_cases ha : a = '\n'
    · rw [show splitNl (a :: t) = [] :: splitNl t from by
        simp [splitNl, if_pos ha]] at hl
      rcases List.mem_cons.mp hl with rfl | hl
      · simp at hc
      · exact List.mem_cons_of_mem a (ih hl hc)
    · obtain ⟨h₂, r₂, ht⟩ : ∃ h₂ r₂, splitNl t = h₂ :: r₂ := by
        cases hq : splitNl t with
        | nil => exact absurd hq (splitNl_ne_nil t)
        | cons x y => exact ⟨x, y, rfl⟩
      rw [show splitNl (a :: t) = (a :: (splitNl t).headD []) :: (splitNl t).tail
          from by simp [splitNl, if_neg ha], ht] at hl
      simp only [List.headD_cons, List.tail_cons] at hl
      rcases List.mem_cons.mp hl with rfl | hl
      · rcases List.mem_cons.mp hc with rfl | hc
        · exact List.mem_cons_self c t
        · apply List.mem_cons_of_mem
          exact ih (ht ▸ List.mem_cons_self h₂ r₂) hc
      · apply List.mem_cons_of_mem
        exact ih (ht ▸ List.mem_cons_of_mem h₂ hl) hc

theorem nb_def (s : List Char) : nbCountLines s = cntNB (splitNl s) := rfl

theorem cnt_cons (l : List Char) (L : List (List Char)) :
    cntNB (l :: L) = (if (pyStrip l).isEmpty then 0 else 1) + cntNB L := by
  unfold cntNB
  rw [List.map_cons, List.filter_cons]
  by_cases h : (pyStrip l).isEmpty
  · simp [h]
  · simp [h]
    omega

theorem cnt_append (A B : List (List Char)) :
    cntNB (A ++ B) = cntNB A + cntNB B := by
  simp [cntNB, List.filter_append]

theorem cnt_zero_of : ∀ (parts : List (List Char)),
    (∀ l ∈ parts, pyStrip l = []) → cntNB parts = 0 := by
  intro parts
  induction parts with
  | nil => intro _; rfl
  | cons x L ih =>
    intro h
    rw [cnt_cons]
    rw [h x (List.mem_cons_self x L)]
    rw [ih (fun l hl => h l (List.mem_cons_of_mem x hl))]
    simp

theorem cnt_modLast {h' : List Char}
    (hf : ∀ l, pyStrip (l ++ h') = pyStrip l) :
    ∀ parts : List (List Char),
      cntNB (modLast (fun l => l ++ h') parts) = cntNB parts := by
  intro parts
  induction parts with
  | nil => rfl
  | cons x L ih =>
    cases L with
    | nil =>
      show cntNB [x ++ h'] = cntNB [x]
      rw [cnt_cons, cnt_cons, hf x]
    | cons y r =>
      show cntNB (x :: modLast (fun l => l ++ h') (y :: r)) = cntNB (x :: y :: r)
      rw [cnt_cons, cnt_cons, ih]

theorem pyStrip_allWS {l : List Char} (h : ∀ c ∈ l, isWS c = true) :
    pyStrip l = [] := by
  unfold pyStrip pyStripP
  rw [dropWhile_allP h]
  rfl

theorem nb_cons_ws {c : Char} (hc : isWS c = true) (z : List Char) :
    nbCountLines (c :: z) = nbCountLines z := by
  by_cases hnl : c = '\n'
  · subst hnl
    rw [nb_def, nb_def]
    rw [show splitNl ('\n' :: z) = [] :: splitNl z from by simp [splitNl]]
    rw [cnt_cons]
    rw [show pyStrip ([] : List Char) = [] from rfl]
    simp
  · obtain ⟨h, r, hsp⟩ : ∃ h r, splitNl z = h :: r := by
      cases hq : splitNl z with
      | nil => exact absurd hq (splitNl_ne_nil z)
      | cons a b => exact ⟨a, b, rfl⟩
    rw [nb_def, nb_def]
    rw [show splitNl (c :: z) = (c :: h) :: r from by
      simp [splitNl, if_neg hnl, hsp]]
    rw [hsp, cnt_cons, cnt_cons]
    rw [show pyStrip (c :: h) = pyStrip h from pyStripP_cons_P hc h]

theorem nb_prepend_ws : ∀ (wl : List Char), (∀ c ∈ wl, isWS c = true) →
    ∀ u, nbCountLines (wl ++ u) = nbCountLines u := by
  intro wl
  induction wl with
  | nil => intro _ u; rfl
  | cons c wl' ih =>
    intro h u
    rw [List.cons_append, nb_cons_ws (h c (List.mem_cons_self c wl'))]
    exact ih (fun d hd => h d (List.mem_cons_of_mem c hd)) u

theorem nb_append_ws {wl : List Char} (hwl : ∀ c ∈ wl, isWS c = true)
    (x : List Char) : nbCountLines (x ++ wl) = nbCountLines x := by
  obtain ⟨h, r, hsp⟩ : ∃ h r, splitNl wl = h :: r := by
    cases hq : splitNl wl with
    | nil => exact absurd hq (splitNl_ne_nil wl)
    | cons a b => exact ⟨a, b, rfl⟩
  have hall_h : ∀ c ∈ h, isWS c = true := fun c hc =>
    hwl c (splitNl_mem (hsp ▸ List.mem_cons_self h r) hc)
  have hf : ∀ l, pyStrip (l ++ h) = pyStrip l := fun l =>
    pyStripP_append_allP hall_h l
  have hr0 : cntNB r = 0 := by
    apply cnt_zero_of
    intro l hl
    apply pyStrip_allWS
    intro c hc
    exact hwl c (splitNl_mem (hsp ▸ List.mem_cons_of_mem h hl) hc)
  rw [nb_def, nb_def, splitNl_append x hsp, cnt_append, cnt_modLast hf, hr0]
  omega

theorem dropEndP_decomp (p : Char → Bool) :
    ∀ l : List Char, ∃ z, dropEndP p l ++ z = l ∧ ∀ c ∈ z, p c = true := by
  intro l
  induction l with
  | nil => exact ⟨[], rfl, by simp⟩
  | cons c t ih =>
    obtain ⟨z, hz, hall⟩ := ih
    cases h : dropEndP p t with
    | nil =>
      rw [h] at hz
      rw [List.nil_append] at hz
      subst hz
      by_cases hc : p c
      · refine ⟨c :: z, ?_, ?_⟩
        · simp [dropEndP, h, hc]
        · intro d hd
          rcases List.mem_cons.mp hd with rfl | hd
          · exact hc
          · exact hall d hd
      · refine ⟨z, ?_, hall⟩
        simp [dropEndP, h, hc]
    | cons d u =>
      refine ⟨z, ?_, hall⟩
      rw [h] at hz
      show (match dropEndP p t with
        | [] => if p c then [] else [c]
        | d :: u => c :: d :: u) ++ z = c :: t
      rw [h]
      rw [← hz]
      rfl

theorem nb_pyStrip (s : List Char) :
    nbCountLines (pyStrip s) = nbCountLines s := by
  have h1 : nbCountLines (s.dropWhile isWS) = nbCountLines s := by
    have hm : ∀ c ∈ s.takeWhile isWS, isWS c = true := fun c hc =>
      List.mem_takeWhile_imp hc
    have := nb_prepend_ws (s.takeWhile isWS) hm (s.dropWhile isWS)
    rw [List.takeWhile_append_dropWhile] at this
    exact this.symm
  obtain ⟨z, hz, hallz⟩ := dropEndP_decomp isWS (s.dropWhile isWS)
  have h2 : nbCountLines (dropEndP isWS (s.dropWhile isWS)) =
      nbCountLines (s.dropWhile isWS) := by
    rw [← (nb_append_ws hallz (dropEndP isWS (s.dropWhile isWS))), hz]
  show nbCountLines (dropEndP isWS (s.dropWhile isWS)) = nbCountLines s
  rw [h2, h1]

/-! ### C6: the content validator -/

/-- C6: `validate_discussion_content` accepts exactly the inputs whose
trimmed length is at least 100 characters and which have at least 3
non-blank lines (so it rejects empty and whitespace-only input, whose
trimmed length is 0); in particular it rejects a 99-character
single-line string and accepts a 150-character, 4-line string. -/
theorem validate_discussion_content_iff :
    (∀ s, validate_discussion_content s = true ↔
      (100 ≤ (pyStrip s).length ∧ 3 ≤ nbCountLines s)) ∧
    validate_discussion_content (List.replicate 99 'a') = false ∧
    (List.replicate 99 'a').length = 99 ∧
    nbCountLines (List.replicate 99 'a') = 1 ∧
    validate_discussion_content sample150 = true ∧
    sample150.length = 150 ∧
    nbCountLines sample150 = 4 := by
  refine ⟨?_, by decide, by decide, by decide, by decide, by decide, by decide⟩
  intro s
  unfold validate_discussion_content
  constructor
  · intro hv
    by_cases h1 : s = []
    · rw [if_pos h1] at hv
      exact absurd hv (by simp)
    rw [if_neg h1] at hv
    by_cases h2 : pyStrip s = []
    · rw [if_pos h2] at hv
      exact absurd hv (by simp)
    rw [if_neg h2] at hv
    by_cases h3 : (pyStrip s).length < 100
    · rw [if_pos h3] at hv
      exact absurd hv (by simp)
    rw [if_neg h3] at hv
    by_cases h4 : nbCountLines (pyStrip s) < 3
    · rw [if_pos h4] at hv
      exact absurd hv (by simp)
    rw [nb_pyStrip] at h4
    exact ⟨by omega, by omega⟩
  · rintro ⟨hlen, hnb⟩
    have h1 : s ≠ [] := by
      intro e
      subst e
      rw [show pyStrip ([] : List Char) = [] from rfl] at hlen
      simp at hlen
    have h2 : pyStrip s ≠ [] := by
      intro e
      rw [e] at hlen
      simp at hlen
    rw [if_neg h1, if_neg h2, if_neg (by omega)]
    rw [if_neg (show ¬nbCountLines (pyStrip s) < 3 by rw [nb_pyStrip]; omega)]

/-- Witness for C6: instantiating the equivalence at the accepted
150-character, 4-line sample. -/
theorem validate_discussion_content_iff_witness :
    100 ≤ (pyStrip sample150).length ∧ 3 ≤ nbCountLines sample150 :=
  (validate_discussion_content_iff.1 sample150).mp (by decide)
